import Mathlib

/-!
# Verification of the tabular rendering engine (`pandas/core/format.py`)

Shallow embedding of the rendering engine's core algorithms:

* Python display strings are modelled as lists of characters (`PyStr`), so that
  slicing (`x[:-1]`, `x[:k]`), `endswith`, membership tests and padding are the
  corresponding list operations on decoded characters.
* Python floats are modelled as exact rationals (`ℚ`); missing values (`NaN`
  entries of a float column) are `Option.none`.  IEEE rounding of the inputs is
  outside the model: every claim treated here is about the formatting policy,
  which is a function of exact comparisons and decimal rendering.
* Stateful loops are modelled either structurally or with an explicit
  fuel/measure argument, together with lemmas showing the fuel suffices (the
  returned value is a genuine fixpoint of the loop).
* `csv.writer` output is modelled as the list of rows handed to the row writer:
  two renders produce byte-for-byte equal output iff the row lists are equal.
-/

/-- A Python (unicode) string: a list of decoded characters. -/
abbrev PyStr := List Char

/-! ## `_trim_zeros` (format.py lines 1565-1580)

```python
def _trim_zeros(str_floats, na_rep='NaN'):
    trimmed = str_floats

    def _cond(values):
        non_na = [x for x in values if x != na_rep]
        return (len(non_na) > 0 and all([x.endswith('0') for x in non_na]) and
                not(any([('e' in x) or ('E' in x) for x in non_na])))

    while _cond(trimmed):
        trimmed = [x[:-1] if x != na_rep else x for x in trimmed]

    # trim decimal points
    return [x[:-1] if x.endswith('.') and x != na_rep else x for x in trimmed]
```
-/

/-- The loop guard `_cond`: the non-`na_rep` strings are non-empty as a list,
all end in `'0'`, and none contains `'e'` or `'E'`. -/
def trimCond (naRep : PyStr) (values : List PyStr) : Bool :=
  let non_na := values.filter fun x => decide (x ≠ naRep)
  decide (0 < non_na.length) &&
    non_na.all (fun x => x.getLast? == some '0') &&
    !(non_na.any fun x => x.contains 'e' || x.contains 'E')

/-- One iteration of the `while` body: `[x[:-1] if x != na_rep else x for x in trimmed]`. -/
def trimRound (naRep : PyStr) (values : List PyStr) : List PyStr :=
  values.map fun x => if x ≠ naRep then x.dropLast else x

/-- Total length of the strings that are not `na_rep`: the loop's termination
measure (each iteration shortens every such string by one character). -/
def trimMeasure (naRep : PyStr) (values : List PyStr) : ℕ :=
  (values.map fun x => if x = naRep then 0 else x.length).sum

/-- The `while` loop, with an explicit fuel argument; `trimMeasure + 1` fuel is
always sufficient (`trimLoopF_fixpoint`). -/
def trimLoopF (naRep : PyStr) : ℕ → List PyStr → List PyStr
  | 0, values => values
  | n+1, values =>
    if trimCond naRep values then trimLoopF naRep n (trimRound naRep values) else values

/-- The final pass `x[:-1] if x.endswith('.') and x != na_rep else x`. -/
def stripDot (naRep : PyStr) (x : PyStr) : PyStr :=
  if x.getLast? = some '.' ∧ x ≠ naRep then x.dropLast else x

/-- Embedding of `_trim_zeros`: run the lock-step trimming loop, then strip one trailing
decimal point. -/
def _trim_zeros (str_floats : List PyStr) (naRep : PyStr) : List PyStr :=
  (trimLoopF naRep (trimMeasure naRep str_floats + 1) str_floats).map (stripDot naRep)

lemma ne_nil_of_getLast?_eq_some {x : PyStr} {c : Char} (h : x.getLast? = some c) : x ≠ [] := by
  intro hx; subst hx; simp at h

/-- Unpacking the loop guard into its three propositional components. -/
lemma trimCond_iff (naRep : PyStr) (values : List PyStr) :
    trimCond naRep values = true ↔
      (∃ x ∈ values, x ≠ naRep) ∧
      (∀ x ∈ values, x ≠ naRep → x.getLast? = some '0') ∧
      (∀ x ∈ values, x ≠ naRep → ¬('e' ∈ x ∨ 'E' ∈ x)) := by
  simp only [trimCond, List.length_pos_iff_exists_mem, Bool.and_eq_true, Bool.not_eq_true',
    List.any_eq_false, List.all_eq_true, List.mem_filter, decide_eq_true_eq, beq_iff_eq,
    Bool.or_eq_false_iff, Bool.or_eq_true, List.contains, List.elem_eq_mem,
    decide_eq_false_iff_not, not_or, and_imp]
  tauto

/-- While the guard holds, one round strictly decreases the measure. -/
lemma trimMeasure_lt (naRep : PyStr) (values : List PyStr)
    (h : trimCond naRep values = true) :
    trimMeasure naRep (trimRound naRep values) < trimMeasure naRep values := by
  obtain ⟨⟨x, hx, hxne⟩, hall, -⟩ := (trimCond_iff naRep values).mp h
  unfold trimMeasure trimRound
  rw [List.map_map]
  apply List.sum_lt_sum
  · intro y hy
    simp only [Function.comp]
    by_cases hyne : y = naRep
    · subst hyne; simp
    · have h1 : (if y ≠ naRep then y.dropLast else y) = y.dropLast := if_pos hyne
      rw [h1, if_neg hyne]
      split
      · exact Nat.zero_le _
      · have := List.length_dropLast y
        omega
  · refine ⟨x, hx, ?_⟩
    have hlast := hall x hx hxne
    have hlen : 0 < x.length := List.length_pos.mpr (ne_nil_of_getLast?_eq_some hlast)
    have hdl : x.dropLast.length = x.length - 1 := List.length_dropLast x
    simp only [Function.comp]
    have h1 : (if x ≠ naRep then x.dropLast else x) = x.dropLast := if_pos hxne
    rw [h1, if_neg hxne]
    split
    · exact hlen
    · omega

/-- The result of the loop does not depend on the fuel, as long as the fuel
exceeds the measure. -/
lemma trimLoopF_congr (naRep : PyStr) :
    ∀ a b values, trimMeasure naRep values < a → trimMeasure naRep values < b →
      trimLoopF naRep a values = trimLoopF naRep b values := by
  intro a
  induction a with
  | zero => intro b values ha _; omega
  | succ a ih =>
    intro b values ha hb
    cases b with
    | zero => omega
    | succ b =>
      simp only [trimLoopF]
      by_cases hc : trimCond naRep values = true
      · rw [if_pos hc, if_pos hc]
        have hd := trimMeasure_lt naRep values hc
        exact ih b _ (by omega) (by omega)
      · rw [if_neg hc, if_neg hc]

/-- Termination: with fuel exceeding the measure, the loop runs until the guard
is false — the returned list is a genuine fixpoint of the loop. -/
lemma trimLoopF_fixpoint (naRep : PyStr) :
    ∀ n values, trimMeasure naRep values < n →
      trimCond naRep (trimLoopF naRep n values) = false := by
  intro n
  induction n with
  | zero => intro values h; omega
  | succ n ih =>
    intro values h
    simp only [trimLoopF]
    by_cases hc : trimCond naRep values = true
    · rw [if_pos hc]
      have hd := trimMeasure_lt naRep values hc
      exact ih _ (by omega)
    · rw [if_neg hc]
      exact Bool.not_eq_true _ ▸ (by simpa using hc)

/-- The loop never changes an entry equal to `na_rep`. -/
lemma trimLoopF_na (naRep : PyStr) :
    ∀ n values (i : ℕ), values[i]? = some naRep →
      (trimLoopF naRep n values)[i]? = some naRep := by
  intro n
  induction n with
  | zero => intro values i h; exact h
  | succ n ih =>
    intro values i h
    simp only [trimLoopF]
    split
    · apply ih
      unfold trimRound
      rw [List.getElem?_map, h]
      simp
    · exact h

/-- C3: the trim pass strips one trailing character from every non-`na_rep`
string simultaneously, repeating exactly while every non-`na_rep` string ends
in `'0'` and none contains `'e'`/`'E'` (and at least one such string exists);
afterwards it strips one trailing `'.'` from non-`na_rep` strings; entries
equal to `na_rep` come back unchanged. -/
theorem trim_zeros_lockstep (values : List PyStr) (naRep : PyStr) :
    (trimCond naRep values = true ↔
      (∃ x ∈ values, x ≠ naRep) ∧
      (∀ x ∈ values, x ≠ naRep → x.getLast? = some '0') ∧
      (∀ x ∈ values, x ≠ naRep → ¬('e' ∈ x ∨ 'E' ∈ x)))
  ∧ (trimCond naRep values = true →
      _trim_zeros values naRep = _trim_zeros (trimRound naRep values) naRep)
  ∧ (trimCond naRep values = false →
      _trim_zeros values naRep = values.map (stripDot naRep))
  ∧ (∀ i : ℕ, values[i]? = some naRep → (_trim_zeros values naRep)[i]? = some naRep) := by
  refine ⟨trimCond_iff naRep values, ?_, ?_, ?_⟩
  · intro h
    unfold _trim_zeros
    have h1 : trimLoopF naRep (trimMeasure naRep values + 1) values
        = trimLoopF naRep (trimMeasure naRep values) (trimRound naRep values) := by
      simp only [trimLoopF, if_pos h]
    rw [h1, trimLoopF_congr naRep _ _ _ (trimMeasure_lt naRep values h) (Nat.lt_succ_self _)]
  · intro h
    unfold _trim_zeros
    have h1 : trimLoopF naRep (trimMeasure naRep values + 1) values = values := by
      simp only [trimLoopF, h]
      simp
    rw [h1]
  · intro i h
    unfold _trim_zeros
    rw [List.getElem?_map, trimLoopF_na naRep _ values i h]
    simp only [Option.map_some']
    congr 1
    unfold stripDot
    rw [if_neg]
    simp

/-- Witness for `trim_zeros_lockstep`: on `["10", "N"]` with `na_rep = "N"` the
guard holds and one lock-step round is taken. -/
theorem trim_zeros_lockstep_witness :
    _trim_zeros [['1','0'], ['N']] ['N'] = _trim_zeros (trimRound ['N'] [['1','0'], ['N']]) ['N'] :=
  (trim_zeros_lockstep [['1','0'], ['N']] ['N']).2.1 (by decide)

/-- C10 counterexample: with `na_rep = ""`, the list `["10", ""]` contains an
empty string, yet the guard holds (the empty string is an `na_rep` entry, so it
is excluded from the guard's scan) and the loop body runs, trimming `"10"` to
`"1"` — it does not exit immediately. -/
theorem trim_termination_counterexample :
    trimCond [] [['1','0'], []] = true ∧
      _trim_zeros [['1','0'], []] [] = [['1'], []] := by
  constructor
  · decide
  · decide

/-- C10 (amended): the loop's measure — the total length of non-`na_rep`
strings — strictly decreases at each iteration, the loop always reaches a state
falsifying its guard (termination), a list of only `na_rep` strings is returned
unchanged, and a list containing an empty string *different from* `na_rep`
exits the loop immediately. -/
theorem trim_termination (values : List PyStr) (naRep : PyStr) :
    (trimCond naRep values = true →
      trimMeasure naRep (trimRound naRep values) < trimMeasure naRep values)
  ∧ trimCond naRep (trimLoopF naRep (trimMeasure naRep values + 1) values) = false
  ∧ ((∀ x ∈ values, x = naRep) → _trim_zeros values naRep = values)
  ∧ (([] ∈ values ∧ naRep ≠ []) →
      trimCond naRep values = false ∧
        _trim_zeros values naRep = values.map (stripDot naRep)) := by
  refine ⟨trimMeasure_lt naRep values, trimLoopF_fixpoint naRep _ values (Nat.lt_succ_self _),
    ?_, ?_⟩
  · intro hall
    have hc : trimCond naRep values = false := by
      by_contra hc
      have := (trimCond_iff naRep values).mp (by simpa using hc)
      obtain ⟨⟨x, hx, hxne⟩, -, -⟩ := this
      exact hxne (hall x hx)
    unfold _trim_zeros
    have h1 : trimLoopF naRep (trimMeasure naRep values + 1) values = values := by
      simp only [trimLoopF, hc]
      simp
    rw [h1]
    have : ∀ x ∈ values, stripDot naRep x = x := by
      intro x hx
      unfold stripDot
      rw [if_neg]
      simp [hall x hx]
    calc values.map (stripDot naRep) = values.map id := List.map_congr_left this
      _ = values := List.map_id values
  · rintro ⟨hmem, hne⟩
    have hc : trimCond naRep values = false := by
      by_contra hc
      have := (trimCond_iff naRep values).mp (by simpa using hc)
      obtain ⟨-, hall, -⟩ := this
      have := hall [] hmem (fun h => hne h.symm)
      simp at this
    refine ⟨hc, ?_⟩
    unfold _trim_zeros
    have h1 : trimLoopF naRep (trimMeasure naRep values + 1) values = values := by
      simp only [trimLoopF, hc]
      simp
    rw [h1]

/-- Witness for `trim_termination`: a list of only `na_rep` strings is returned
unchanged. -/
theorem trim_termination_witness :
    _trim_zeros [['N']] ['N'] = [['N']] :=
  (trim_termination [['N']] ['N']).2.2.1 (by decide)

/-! ## `_make_fixed_width` (format.py lines 1533-1562)

```python
def _make_fixed_width(strings, justify='right', minimum=None):
    if len(strings) == 0:
        return strings
    max_len = np.max([_strlen(x) for x in strings])
    if minimum is not None:
        max_len = max(minimum, max_len)
    conf_max = get_option("display.max_colwidth")
    if conf_max is not None and max_len > conf_max:
        max_len = conf_max
    if justify == 'left':
        justfunc = lambda self, x: self.ljust(x)
    else:
        justfunc = lambda self, x: self.rjust(x)
    def just(x):
        eff_len = max_len
        if conf_max is not None:
            if (conf_max > 3) & (_strlen(x) > max_len):
                x = x[:eff_len - 3] + '...'
        return justfunc(x, eff_len)
    return [just(x) for x in strings]
```

The configuration value `display.max_colwidth` is threaded as the explicit
parameter `confMax`.
-/

/-- Computes `np.max([len(x) for x in l])`, with `0` for an empty list (the renderers
only apply it to non-empty lists, or guard the empty case themselves). -/
def maxLenOf (l : List PyStr) : ℕ := (l.map List.length).foldr max 0

/-- Python `str.ljust`: pad on the right up to width `w` (no-op when already
at least `w` long). -/
def pyLjust (x : PyStr) (w : ℕ) : PyStr := x ++ List.replicate (w - x.length) ' '

/-- Python `str.rjust`: pad on the left up to width `w`. -/
def pyRjust (x : PyStr) (w : ℕ) : PyStr := List.replicate (w - x.length) ' ' ++ x

/-- The sequential `max_len` reassignments of `_make_fixed_width`. -/
def mfwWidth (strings : List PyStr) (minimum confMax : Option ℕ) : ℕ :=
  let max_len := maxLenOf strings
  let max_len := match minimum with
    | some mn => max mn max_len
    | none => max_len
  match confMax with
  | some c => if c < max_len then c else max_len
  | none => max_len

/-- The inner `just(x)`: ellipsis truncation (under a set `max_colwidth` larger
than 3, for strings longer than the column width), then justification. -/
def mfwJust (justify : String) (confMax : Option ℕ) (max_len : ℕ) (x : PyStr) : PyStr :=
  let x := match confMax with
    | some c => if 3 < c ∧ max_len < x.length then x.take (max_len - 3) ++ ['.', '.', '.'] else x
    | none => x
  if justify = ("left") then pyLjust x max_len else pyRjust x max_len

/-- Embedding of `_make_fixed_width`. -/
def _make_fixed_width (strings : List PyStr) (justify : String)
    (minimum confMax : Option ℕ) : List PyStr :=
  if strings = [] then strings
  else strings.map (mfwJust justify confMax (mfwWidth strings minimum confMax))

/-- The uniform width predicted by the specification: the larger of the
requested minimum and the longest input, clamped to the configured maximum. -/
def fixedWidthTarget (strings : List PyStr) (minimum confMax : Option ℕ) : ℕ :=
  let base := max (minimum.getD 0) (maxLenOf strings)
  match confMax with
  | none => base
  | some c => min c base

lemma fixedWidthTarget_none (strings : List PyStr) (minimum : Option ℕ) :
    fixedWidthTarget strings minimum none = max (minimum.getD 0) (maxLenOf strings) := rfl

lemma fixedWidthTarget_some (strings : List PyStr) (minimum : Option ℕ) (c : ℕ) :
    fixedWidthTarget strings minimum (some c) = min c (max (minimum.getD 0) (maxLenOf strings)) := rfl

lemma mfwWidth_eq_target (strings : List PyStr) (minimum confMax : Option ℕ) :
    mfwWidth strings minimum confMax = fixedWidthTarget strings minimum confMax := by
  cases confMax with
  | none =>
    cases minimum with
    | none => simp only [mfwWidth, fixedWidthTarget_none, Option.getD]; omega
    | some mn => simp only [mfwWidth, fixedWidthTarget_none, Option.getD]
  | some c =>
    cases minimum with
    | none =>
      simp only [mfwWidth, fixedWidthTarget_some, Option.getD]
      split <;> omega
    | some mn =>
      simp only [mfwWidth, fixedWidthTarget_some, Option.getD]
      split <;> omega

lemma le_maxLenOf (l : List PyStr) : ∀ x ∈ l, x.length ≤ maxLenOf l := by
  induction l with
  | nil => intro x hx; simp at hx
  | cons a t ih =>
    intro x hx
    have hm : maxLenOf (a :: t) = max a.length (maxLenOf t) := by simp [maxLenOf]
    rcases List.mem_cons.mp hx with rfl | hx
    · rw [hm]; exact le_max_left _ _
    · rw [hm]; exact le_trans (ih x hx) (le_max_right _ _)

lemma mfwJust_none (justify : String) (max_len : ℕ) (x : PyStr) :
    mfwJust justify none max_len x
      = (if justify = ("left") then pyLjust x max_len else pyRjust x max_len) := rfl

lemma mfwJust_some (justify : String) (c max_len : ℕ) (x : PyStr) :
    mfwJust justify (some c) max_len x
      = (if justify = ("left")
          then pyLjust
            (if 3 < c ∧ max_len < x.length then x.take (max_len - 3) ++ ['.', '.', '.'] else x)
            max_len
          else pyRjust
            (if 3 < c ∧ max_len < x.length then x.take (max_len - 3) ++ ['.', '.', '.'] else x)
            max_len) := rfl

/-- Per-entry description of `_make_fixed_width`'s output, assuming any
configured maximum column width exceeds 3. -/
lemma mfw_result_get (strings : List PyStr) (justify : String)
    (minimum confMax : Option ℕ) (h3 : ∀ c, confMax = some c → 3 < c)
    (i : ℕ) (x : PyStr) (hx : strings[i]? = some x) :
    (_make_fixed_width strings justify minimum confMax)[i]?
      = some (if fixedWidthTarget strings minimum confMax < x.length
          then x.take (fixedWidthTarget strings minimum confMax - 3) ++ ['.', '.', '.']
          else if justify = ("left") then pyLjust x (fixedWidthTarget strings minimum confMax)
            else pyRjust x (fixedWidthTarget strings minimum confMax)) := by
  have hne : strings ≠ [] := by
    intro hnil; subst hnil; simp at hx
  have hmem : x ∈ strings := List.mem_iff_getElem?.mpr ⟨i, hx⟩
  have hlen : x.length ≤ maxLenOf strings := le_maxLenOf strings x hmem
  unfold _make_fixed_width
  rw [if_neg hne, List.getElem?_map, hx]
  simp only [Option.map_some']
  congr 1
  rw [mfwWidth_eq_target]
  cases hcm : confMax with
  | none =>
    have hnl : ¬ fixedWidthTarget strings minimum none < x.length := by
      rw [fixedWidthTarget_none]; omega
    rw [if_neg hnl]
    rfl
  | some c =>
    have hc3 : 3 < c := h3 c hcm
    set W := fixedWidthTarget strings minimum (some c) with hW
    rw [mfwJust_some]
    by_cases hWx : W < x.length
    · have hWc : W = c := by
        rw [hW, fixedWidthTarget_some]
        rw [hW, fixedWidthTarget_some] at hWx
        omega
      have htlen : (x.take (W - 3) ++ ['.', '.', '.']).length = W := by
        simp only [List.length_append, List.length_take, List.length_cons, List.length_nil]
        omega
      have hcond : 3 < c ∧ W < x.length := ⟨hc3, hWx⟩
      rw [if_pos hWx, if_pos hcond]
      by_cases hj : justify = ("left")
      · rw [if_pos hj]
        unfold pyLjust; rw [htlen, Nat.sub_self]; simp
      · rw [if_neg hj]
        unfold pyRjust; rw [htlen, Nat.sub_self]; simp
    · have hncond : ¬ (3 < c ∧ W < x.length) := fun hh => hWx hh.2
      rw [if_neg hWx, if_neg hncond]

/-- C4 counterexample: with `display.max_colwidth = 3`, a clamped column is
*not* width-uniform — the over-long string is neither truncated (the `> 3`
guard fails) nor padded, while short strings are padded to the clamped
width: lengths 5 and 3 result. -/
theorem make_fixed_width_claim_counterexample :
    _make_fixed_width [['a','a','a','a','a'], ['a']] "right" none (some 3)
        = [['a','a','a','a','a'], [' ',' ','a']] ∧
      ¬(∀ s ∈ _make_fixed_width [['a','a','a','a','a'], ['a']] "right" none (some 3),
          ∀ t ∈ _make_fixed_width [['a','a','a','a','a'], ['a']] "right" none (some 3),
            s.length = t.length) := by
  constructor
  · decide
  · decide

/-- C4 (amended): provided the configured maximum column width is unset or
exceeds 3, `_make_fixed_width` returns strings of one uniform length —
`max(minimum, longest)` clamped to the configured maximum, hence at least the
minimum when no clamping occurs; clamped-away strings are truncated to
`width-3` characters plus a three-character ellipsis; left justification pads
on the right, right justification pads on the left; an empty input is
returned unchanged. -/
theorem make_fixed_width_uniform (strings : List PyStr) (justify : String)
    (minimum confMax : Option ℕ) (h3 : ∀ c, confMax = some c → 3 < c) :
    (_make_fixed_width [] justify minimum confMax = [])
  ∧ (∀ s ∈ _make_fixed_width strings justify minimum confMax,
      s.length = fixedWidthTarget strings minimum confMax)
  ∧ (∀ mn, minimum = some mn →
      (∀ c, confMax = some c → max mn (maxLenOf strings) ≤ c) →
      mn ≤ fixedWidthTarget strings minimum confMax)
  ∧ (∀ (i : ℕ) (x : PyStr), strings[i]? = some x →
      (fixedWidthTarget strings minimum confMax < x.length →
        (_make_fixed_width strings justify minimum confMax)[i]?
          = some (x.take (fixedWidthTarget strings minimum confMax - 3) ++ ['.', '.', '.']))
    ∧ (x.length ≤ fixedWidthTarget strings minimum confMax →
        (justify = ("left") →
          (_make_fixed_width strings justify minimum confMax)[i]?
            = some (x ++ List.replicate (fixedWidthTarget strings minimum confMax - x.length) ' '))
      ∧ (justify ≠ ("left") →
          (_make_fixed_width strings justify minimum confMax)[i]?
            = some (List.replicate (fixedWidthTarget strings minimum confMax - x.length) ' ' ++ x)))) := by
  refine ⟨by simp [_make_fixed_width], ?_, ?_, ?_⟩
  · intro s hs
    obtain ⟨i, hs⟩ := List.mem_iff_getElem?.mp hs
    have hxsome : ∃ x, strings[i]? = some x := by
      by_cases hne : strings = []
      · subst hne; simp [_make_fixed_width] at hs
      · have : i < strings.length := by
          have h1 : i < (_make_fixed_width strings justify minimum confMax).length :=
            (List.getElem?_eq_some.mp hs).1
          unfold _make_fixed_width at h1
          rw [if_neg hne, List.length_map] at h1
          exact h1
        exact ⟨strings[i], List.getElem?_eq_some.mpr ⟨this, rfl⟩⟩
    obtain ⟨x, hx⟩ := hxsome
    have hmem : x ∈ strings := List.mem_iff_getElem?.mpr ⟨i, hx⟩
    have hlen : x.length ≤ maxLenOf strings := le_maxLenOf strings x hmem
    have h := mfw_result_get strings justify minimum confMax h3 i x hx
    rw [hs] at h
    have heq := Option.some.inj h
    rw [heq]
    set W := fixedWidthTarget strings minimum confMax with hWdef
    split
    · next hWx =>
      have hW3 : 3 < W := by
        cases hcm : confMax with
        | none =>
          exfalso
          rw [hWdef, hcm, fixedWidthTarget_none] at hWx
          omega
        | some c =>
          have hc3 : 3 < c := h3 c hcm
          rw [hWdef, hcm, fixedWidthTarget_some]
          rw [hWdef, hcm, fixedWidthTarget_some] at hWx
          omega
      simp only [List.length_append, List.length_take, List.length_cons, List.length_nil]
      omega
    · next hWx =>
      split
      · unfold pyLjust
        simp only [List.length_append, List.length_replicate]
        omega
      · unfold pyRjust
        simp only [List.length_append, List.length_replicate]
        omega
  · intro mn hmn hcl
    cases hcm : confMax with
    | none =>
      subst hmn
      rw [fixedWidthTarget_none]
      simp only [Option.getD]
      omega
    | some c =>
      have := hcl c hcm
      subst hmn
      rw [fixedWidthTarget_some]
      simp only [Option.getD] at *
      omega
  · intro i x hx
    have h := mfw_result_get strings justify minimum confMax h3 i x hx
    refine ⟨fun hlt => by rw [h, if_pos hlt], fun hle => ⟨fun hj => ?_, fun hj => ?_⟩⟩
    · rw [h, if_neg (by omega), if_pos hj]
      rfl
    · rw [h, if_neg (by omega), if_neg hj]
      rfl

/-- Witness for `make_fixed_width_uniform`: a 12-character string clamped to
width 10 is truncated to 7 characters plus the ellipsis. -/
theorem make_fixed_width_uniform_witness :
    (_make_fixed_width [List.replicate 12 'a'] "right" none (some 10))[0]?
      = some ((List.replicate 12 'a').take
          (fixedWidthTarget [List.replicate 12 'a'] none (some 10) - 3) ++ ['.', '.', '.']) :=
  ((make_fixed_width_uniform [List.replicate 12 'a'] "right" none (some 10)
      (fun c hc => by injection hc with h; omega)).2.2.2 0 (List.replicate 12 'a')
      (by decide)).1 (by decide)

/-! ## `_get_level_lengths` (format.py lines 761-785)

```python
def _get_level_lengths(levels,sentinal=''):
    from itertools import groupby

    def _make_grouper():
        record = {'count': 0}
        def grouper(x):
            if x != sentinal:
                record['count'] += 1
            return record['count']
        return grouper

    result = []
    for lev in levels:
        i = 0
        f = _make_grouper()
        recs = {}
        for key, gpr in groupby(lev, f):
            values = list(gpr)
            recs[i] = len(values)
            i += len(values)
        result.append(recs)
    return result
```

The grouper assigns every entry the running count of non-sentinel entries seen
so far (the entry itself included); `groupby` collects maximal blocks of
consecutive entries with equal key.  The count increments exactly at
non-sentinel entries, so adjacent entries `a, b` carry equal keys iff `b`
equals the sentinel: the first entry of a level always opens a run, and a later
entry opens a new run iff it differs from the sentinel.  `recs` records, in
scan order, each run's start offset `i` and its length.  `levelRunsAux`
performs exactly this scan, carrying the current run's start offset and length;
the per-level `dict` is modelled as the association list of its insertion-order
`(start, length)` pairs. -/

/-- Scan the tail of a level; `(start, len)` is the run currently open. -/
def levelRunsAux (sentinal : String) : List String → ℕ → ℕ → List (ℕ × ℕ)
  | [], start, len => [(start, len)]
  | x :: xs, start, len =>
    if x = sentinal then levelRunsAux sentinal xs start (len + 1)
    else (start, len) :: levelRunsAux sentinal xs (start + len) 1

/-- The `(start offset, run length)` map produced for one level: the first
entry (sentinel or not) opens the run at offset 0. -/
def levelRuns (sentinal : String) (lev : List String) : List (ℕ × ℕ) :=
  match lev with
  | [] => []
  | _ :: xs => levelRunsAux sentinal xs 0 1

/-- Embedding of `_get_level_lengths`. -/
def _get_level_lengths (levels : List (List String)) (sentinal : String) :
    List (List (ℕ × ℕ)) :=
  levels.map (levelRuns sentinal)

lemma runsAux_sum (sentinal : String) :
    ∀ (xs : List String) (i n : ℕ),
      ((levelRunsAux sentinal xs i n).map Prod.snd).sum = n + xs.length := by
  intro xs
  induction xs with
  | nil => intro i n; simp [levelRunsAux]
  | cons x xs ih =>
    intro i n
    simp only [levelRunsAux]
    split
    · rw [ih]; simp; omega
    · simp only [List.map_cons, List.sum_cons, ih]; simp; omega

lemma runsAux_head (sentinal : String) :
    ∀ (xs : List String) (i n : ℕ), 0 < n →
      ∃ m, 0 < m ∧ (levelRunsAux sentinal xs i n).head? = some (i, m) := by
  intro xs
  induction xs with
  | nil => intro i n hn; exact ⟨n, hn, rfl⟩
  | cons x xs ih =>
    intro i n hn
    simp only [levelRunsAux]
    split
    · exact ih i (n + 1) (by omega)
    · exact ⟨n, hn, rfl⟩

lemma runsAux_start_le (sentinal : String) :
    ∀ (xs : List String) (i n : ℕ) (p : ℕ × ℕ),
      p ∈ levelRunsAux sentinal xs i n → i ≤ p.1 := by
  intro xs
  induction xs with
  | nil =>
    intro i n p hp
    simp only [levelRunsAux, List.mem_singleton] at hp
    subst hp; exact le_refl i
  | cons x xs ih =>
    intro i n p hp
    simp only [levelRunsAux] at hp
    split at hp
    · exact ih i (n + 1) p hp
    · rcases List.mem_cons.mp hp with rfl | hp
      · exact le_refl i
      · exact le_trans (by omega) (ih (i + n) 1 p hp)

lemma runsAux_pos_len (sentinal : String) :
    ∀ (xs : List String) (i n : ℕ), 0 < n →
      ∀ p ∈ levelRunsAux sentinal xs i n, 0 < p.2 := by
  intro xs
  induction xs with
  | nil =>
    intro i n hn p hp
    simp only [levelRunsAux, List.mem_singleton] at hp
    subst hp; exact hn
  | cons x xs ih =>
    intro i n hn p hp
    simp only [levelRunsAux] at hp
    split at hp
    · exact ih i (n + 1) (by omega) p hp
    · rcases List.mem_cons.mp hp with rfl | hp
      · exact hn
      · exact ih (i + n) 1 (by omega) p hp

lemma runsAux_pairwise (sentinal : String) :
    ∀ (xs : List String) (i n : ℕ),
      List.Pairwise (fun p q : ℕ × ℕ => p.1 + p.2 ≤ q.1) (levelRunsAux sentinal xs i n) := by
  intro xs
  induction xs with
  | nil => intro i n; simp [levelRunsAux]
  | cons x xs ih =>
    intro i n
    simp only [levelRunsAux]
    split
    · exact ih i (n + 1)
    · exact List.Pairwise.cons (fun q hq => runsAux_start_le sentinal xs (i + n) 1 q hq)
        (ih (i + n) 1)

lemma runsAux_chain (sentinal : String) :
    ∀ (xs : List String) (i n : ℕ), 0 < n →
      List.Chain' (fun p q : ℕ × ℕ => p.1 + p.2 = q.1) (levelRunsAux sentinal xs i n) := by
  intro xs
  induction xs with
  | nil => intro i n _; simp [levelRunsAux]
  | cons x xs ih =>
    intro i n hn
    simp only [levelRunsAux]
    split
    · exact ih i (n + 1) (by omega)
    · rw [List.chain'_cons']
      refine ⟨?_, ih (i + n) 1 (by omega)⟩
      intro q hq
      obtain ⟨m, -, hm⟩ := runsAux_head sentinal xs (i + n) 1 (by omega)
      rw [hm] at hq
      cases hq
      rfl

lemma runsAux_cover (sentinal : String) :
    ∀ (xs : List String) (i n j : ℕ), i ≤ j → j < i + n + xs.length →
      ∃ p ∈ levelRunsAux sentinal xs i n, p.1 ≤ j ∧ j < p.1 + p.2 := by
  intro xs
  induction xs with
  | nil =>
    intro i n j hij hj
    refine ⟨(i, n), List.mem_singleton_self _, hij, ?_⟩
    simpa using hj
  | cons x xs ih =>
    intro i n j hij hj
    simp only [levelRunsAux]
    split
    · exact ih i (n + 1) j hij (by simp at hj ⊢; omega)
    · by_cases hjn : j < i + n
      · exact ⟨(i, n), List.mem_cons_self _ _, hij, hjn⟩
      · obtain ⟨p, hp, hcov⟩ := ih (i + n) 1 j (by omega) (by simp at hj ⊢; omega)
        exact ⟨p, List.mem_cons_of_mem _ hp, hcov⟩

lemma runsAux_start_at (sentinal : String) :
    ∀ (xs : List String) (i n k : ℕ) (x : String), xs[k]? = some x → x ≠ sentinal →
      ∃ p ∈ levelRunsAux sentinal xs i n, p.1 = i + n + k := by
  intro xs
  induction xs with
  | nil => intro i n k x hk _; simp at hk
  | cons y ys ih =>
    intro i n k x hk hxs
    cases k with
    | zero =>
      rw [List.getElem?_cons_zero] at hk
      cases hk
      simp only [levelRunsAux, if_neg hxs]
      obtain ⟨m, -, hm⟩ := runsAux_head sentinal ys (i + n) 1 (by omega)
      refine ⟨(i + n, m), List.mem_cons_of_mem _ (List.mem_of_mem_head? hm), by omega⟩
    | succ k =>
      rw [List.getElem?_cons_succ] at hk
      simp only [levelRunsAux]
      split
      · obtain ⟨p, hp, hps⟩ := ih i (n + 1) k x hk hxs
        exact ⟨p, hp, by omega⟩
      · obtain ⟨p, hp, hps⟩ := ih (i + n) 1 k x hk hxs
        exact ⟨p, List.mem_cons_of_mem _ hp, by omega⟩

/-- Any two runs of a level are disjoint intervals. -/
lemma runs_disjoint (sentinal : String) (xs : List String) (i n : ℕ)
    {p q : ℕ × ℕ} (hp : p ∈ levelRunsAux sentinal xs i n)
    (hq : q ∈ levelRunsAux sentinal xs i n) (hne : p ≠ q) (j : ℕ)
    (hpj : p.1 ≤ j ∧ j < p.1 + p.2) (hqj : q.1 ≤ j ∧ j < q.1 + q.2) : False := by
  have hpw := runsAux_pairwise sentinal xs i n
  have hpw' : List.Pairwise
      (fun p q : ℕ × ℕ => p.1 + p.2 ≤ q.1 ∨ q.1 + q.2 ≤ p.1)
      (levelRunsAux sentinal xs i n) := hpw.imp fun h => Or.inl h
  have := List.Pairwise.forall (fun _ _ h => h.symm) hpw' hp hq hne
  omega

/-- C5: for every hierarchical-index level, the sparsifier's run map covers the
level's rows exactly once: the first recorded run starts at offset 0, each
run's start plus its length is the next run's start, the run lengths sum to the
level's row count, and every row index lies in exactly one `(start, length)`
run. -/
theorem sparsifier_runs_cover (sentinal : String) (levels : List (List String))
    (k : ℕ) (lev : List String) (hk : levels[k]? = some lev) :
    ∃ runs, (_get_level_lengths levels sentinal)[k]? = some runs ∧
      runs = levelRuns sentinal lev ∧
      (runs.map Prod.snd).sum = lev.length ∧
      List.Chain' (fun p q : ℕ × ℕ => p.1 + p.2 = q.1) runs ∧
      (lev ≠ [] → ∃ m, 0 < m ∧ runs.head? = some (0, m)) ∧
      (∀ j, j < lev.length → ∃! p : ℕ × ℕ, p ∈ runs ∧ p.1 ≤ j ∧ j < p.1 + p.2) := by
  refine ⟨levelRuns sentinal lev, ?_, rfl, ?_, ?_, ?_, ?_⟩
  · unfold _get_level_lengths
    rw [List.getElem?_map, hk]
    rfl
  · cases lev with
    | nil => simp [levelRuns]
    | cons x xs =>
      show ((levelRunsAux sentinal xs 0 1).map Prod.snd).sum = (x :: xs).length
      rw [runsAux_sum]
      simp
      omega
  · cases lev with
    | nil => simp [levelRuns]
    | cons x xs => exact runsAux_chain sentinal xs 0 1 (by omega)
  · intro hne
    cases lev with
    | nil => exact absurd rfl hne
    | cons x xs => exact runsAux_head sentinal xs 0 1 (by omega)
  · intro j hj
    cases lev with
    | nil => simp at hj
    | cons x xs =>
      obtain ⟨p, hp, hcov⟩ :=
        runsAux_cover sentinal xs 0 1 j (Nat.zero_le j) (by simp at hj ⊢; omega)
      refine ⟨p, ⟨hp, hcov⟩, ?_⟩
      rintro q ⟨hq, hqcov⟩
      by_contra hne
      exact runs_disjoint sentinal xs 0 1 hq hp hne j hqcov hcov

/-- Witness for `sparsifier_runs_cover`: level `["a", "", "b"]` with the empty
sentinel has runs of total length 3. -/
theorem sparsifier_runs_cover_witness :
    ∃ runs, (_get_level_lengths [[("a"), (""), ("b")]] (""))[0]? = some runs ∧
      (runs.map Prod.snd).sum = 3 := by
  obtain ⟨runs, hget, -, hsum, -⟩ :=
    sparsifier_runs_cover ("") [[("a"), (""), ("b")]] 0 [("a"), (""), ("b")] rfl
  exact ⟨runs, hget, by simpa using hsum⟩

/-- C6: two non-sentinel entries of a level (in particular the starts of two
blocks of one repeated label value separated by a different value) each open
their own run, and no single run contains them both: non-contiguous equal
values are never merged. -/
theorem sparsifier_no_merge (sentinal : String) (lev : List String)
    (j1 j2 : ℕ) (x1 x2 : String)
    (h1 : lev[j1]? = some x1) (hx1 : x1 ≠ sentinal)
    (h2 : lev[j2]? = some x2) (hx2 : x2 ≠ sentinal) (hlt : j1 < j2) :
    ∃ runs, (_get_level_lengths [lev] sentinal)[0]? = some runs ∧
      (∃ p ∈ runs, p.1 = j1) ∧ (∃ q ∈ runs, q.1 = j2) ∧
      (∀ r ∈ runs, ¬(r.1 ≤ j1 ∧ j1 < r.1 + r.2 ∧ r.1 ≤ j2 ∧ j2 < r.1 + r.2)) := by
  cases lev with
  | nil => simp at h1
  | cons y ys =>
    refine ⟨levelRunsAux sentinal ys 0 1, rfl, ?_, ?_, ?_⟩
    · cases j1 with
      | zero =>
        obtain ⟨m, -, hm⟩ := runsAux_head sentinal ys 0 1 (by omega)
        exact ⟨(0, m), List.mem_of_mem_head? hm, rfl⟩
      | succ j =>
        rw [List.getElem?_cons_succ] at h1
        obtain ⟨p, hp, hps⟩ := runsAux_start_at sentinal ys 0 1 j x1 h1 hx1
        exact ⟨p, hp, by omega⟩
    · cases j2 with
      | zero => omega
      | succ j =>
        rw [List.getElem?_cons_succ] at h2
        obtain ⟨p, hp, hps⟩ := runsAux_start_at sentinal ys 0 1 j x2 h2 hx2
        exact ⟨p, hp, by omega⟩
    · rintro r hr ⟨hr1, hr2, hr3, hr4⟩
      cases j2 with
      | zero => omega
      | succ j =>
        rw [List.getElem?_cons_succ] at h2
        obtain ⟨q, hq, hqs⟩ := runsAux_start_at sentinal ys 0 1 j x2 h2 hx2
        have hqpos : 0 < q.2 := runsAux_pos_len sentinal ys 0 1 (by omega) q hq
        by_cases hrq : r = q
        · subst hrq; omega
        · exact runs_disjoint sentinal ys 0 1 hr hq hrq (j + 1)
            ⟨hr3, hr4⟩ ⟨by omega, by omega⟩

/-- Witness for `sparsifier_no_merge`: in `["a", "", "b", "", "a", ""]` the two
`"a"` blocks (offsets 0 and 4) get distinct runs, and no run contains both. -/
theorem sparsifier_no_merge_witness :
    ∃ runs, (_get_level_lengths [[("a"), (""), ("b"), (""), ("a"), ("")]] (""))[0]?
        = some runs ∧
      (∃ p ∈ runs, p.1 = 0) ∧ (∃ q ∈ runs, q.1 = 4) ∧
      (∀ r ∈ runs, ¬(r.1 ≤ 0 ∧ 0 < r.1 + r.2 ∧ r.1 ≤ 4 ∧ 4 < r.1 + r.2)) :=
  sparsifier_no_merge ("") [("a"), (""), ("b"), (""), ("a"), ("")] 0 4 ("a") ("a")
    rfl (by decide) rfl (by decide) (by omega)

/-! ## `_binify` (format.py lines 1871-1888) and `DataFrameFormatter._join_multiline`
(lines 302-329)

```python
def _binify(cols, line_width):
    adjoin_width = 1
    bins = []
    curr_width = 0
    i_last_column = len(cols) - 1
    for i, w in enumerate(cols):
        w_adjoined = w + adjoin_width
        curr_width += w_adjoined
        if i_last_column == i:
            wrap = curr_width + 1 > line_width and i > 0
        else:
            wrap = curr_width + 2 > line_width and i > 0
        if wrap:
            bins.append(i)
            curr_width = w_adjoined
    bins.append(len(cols))
    return bins
```

`_join_multiline` (with `self.index` true) pops the row-label block off the
column list, shrinks the line width by the label block's width plus one,
computes per-column widths, bins them, and renders one block per bin: the
bin's columns with the label block re-inserted at the front and — when there
is more than one bin — a continuation column appended (`' \\'` over blanks for
interior bins, all blanks for the final one).  Blocks are modelled as the
column lists handed to `adjoin`; widths are integers since the effective line
width can go negative in Python. -/

/-- The `for i, w in enumerate(cols)` loop of `_binify`, carrying the running
`curr_width` and emitting closed bin boundaries. -/
def binifyAux (line_width : ℤ) (i_last_column : ℕ) : ℕ → ℤ → List ℕ → List ℕ
  | _, _, [] => []
  | i, curr_width, w :: ws =>
    let w_adjoined : ℤ := (w : ℤ) + 1
    let curr' := curr_width + w_adjoined
    let wrap : Bool := if i = i_last_column then decide (line_width < curr' + 1 ∧ 0 < i)
      else decide (line_width < curr' + 2 ∧ 0 < i)
    if wrap then i :: binifyAux line_width i_last_column (i + 1) w_adjoined ws
    else binifyAux line_width i_last_column (i + 1) curr' ws

/-- Embedding of `_binify`. -/
def _binify (cols : List ℕ) (line_width : ℤ) : List ℕ :=
  binifyAux line_width (cols.length - 1) 0 0 cols ++ [cols.length]

/-- The continuation-marker column `[' \\'] + ['  '] * (len(frame) - 1)`. -/
def markerCol (frameLen : ℕ) : List PyStr :=
  [' ', '\\'] :: List.replicate (frameLen - 1) [' ', ' ']

/-- The final bin's blank column `[' '] * len(frame)`. -/
def blankCol (frameLen : ℕ) : List PyStr := List.replicate frameLen [' ']

/-- The per-bin loop of `_join_multiline`: for each closed bin boundary `ed`,
emit the columns `strcols[st:ed]` with the row-label block `idx` re-inserted at
the front and the continuation column appended between bins. -/
def multilineRows (idx : List PyStr) (strcols : List (List PyStr))
    (frameLen nbins ncols : ℕ) : ℕ → ℕ → List ℕ → List (List (List PyStr))
  | _, _, [] => []
  | st, i, ed :: rest =>
    let row := (strcols.take ed).drop st
    let row := idx :: row
    let row := if 1 < nbins then
        (if ed ≤ ncols ∧ i < nbins - 1 then row ++ [markerCol frameLen]
         else row ++ [blankCol frameLen])
      else row
    row :: multilineRows idx strcols frameLen nbins ncols ed (i + 1) rest

/-- Embedding of `_join_multiline` with `self.index` set: returns the list of blocks (each a
list of columns) that are adjoined and then joined with blank lines. -/
def _join_multiline (line_width : ℤ) (idx : List PyStr) (strcols : List (List PyStr))
    (frameLen : ℕ) : List (List (List PyStr)) :=
  let adjoin_width : ℤ := 1
  let lwidth : ℤ := line_width - ((maxLenOf idx : ℤ) + adjoin_width)
  let col_widths := strcols.map maxLenOf
  let col_bins := _binify col_widths lwidth
  let nbins := col_bins.length
  multilineRows idx strcols frameLen nbins strcols.length 0 0 col_bins

/-- Five width-40 columns at any effective line width of at most 82 close a
bin at every column: two adjoined columns cost `40+1+40+1 = 82` plus the
interior slack `+2` (or final slack `+1`), which exceeds the line width. -/
lemma binify_width40_cols (lw : ℤ) (hlw : lw ≤ 82) :
    _binify [40, 40, 40, 40, 40] lw = [1, 2, 3, 4, 5] := by
  simp only [_binify, binifyAux, decide_eq_true_eq]
  norm_num
  split_ifs <;> first | rfl | omega

lemma multilineRows_head (idx : List PyStr) (strcols : List (List PyStr))
    (frameLen nbins ncols : ℕ) :
    ∀ (bins : List ℕ) (st i : ℕ),
      ∀ b ∈ multilineRows idx strcols frameLen nbins ncols st i bins,
        b.head? = some idx := by
  intro bins
  induction bins with
  | nil => intro st i b hb; simp [multilineRows] at hb
  | cons ed rest ih =>
    intro st i b hb
    simp only [multilineRows] at hb
    rcases List.mem_cons.mp hb with rfl | hb
    · split
      · split <;> simp [List.cons_append]
      · rfl
    · exact ih ed (i + 1) b hb

lemma multilineRows_length (idx : List PyStr) (strcols : List (List PyStr))
    (frameLen nbins ncols : ℕ) :
    ∀ (bins : List ℕ) (st i : ℕ),
      (multilineRows idx strcols frameLen nbins ncols st i bins).length = bins.length := by
  intro bins
  induction bins with
  | nil => intro st i; rfl
  | cons ed rest ih =>
    intro st i
    simp only [multilineRows, List.length_cons]
    rw [ih]

/-- C7 counterexample: five width-40 columns at configured line width 80
produce five bins (one column each), not the three bins the claim predicts —
already at the `_binify` level, before the row-label width further shrinks the
budget. -/
theorem binify_scenario_counterexample :
    _binify [40, 40, 40, 40, 40] 80 = [1, 2, 3, 4, 5] ∧
      (_binify [40, 40, 40, 40, 40] 80).length ≠ 3 := by
  constructor
  · decide
  · decide

/-- C7 (amended): five width-40 columns under any effective line width of at
most 82 — in particular configured width 80, with or without the row-label
deduction — split into exactly five bins of one column each; the row-label
block is re-emitted at the start of every bin of `_join_multiline`'s output. -/
theorem binify_five_bins :
    (∀ lw : ℤ, lw ≤ 82 → _binify [40, 40, 40, 40, 40] lw = [1, 2, 3, 4, 5])
  ∧ (∀ (lw : ℤ) (idx : List PyStr) (strcols : List (List PyStr)) (frameLen : ℕ),
      ∀ b ∈ _join_multiline lw idx strcols frameLen, b.head? = some idx)
  ∧ (_join_multiline 80 [['i']] (List.replicate 5 [List.replicate 40 'a']) 3).length = 5 := by
  refine ⟨binify_width40_cols, ?_, ?_⟩
  · intro lw idx strcols frameLen b hb
    exact multilineRows_head idx strcols frameLen _ _ _ 0 0 b hb
  · show (multilineRows _ _ _ _ _ 0 0 _).length = 5
    rw [multilineRows_length]
    have hcols : (List.replicate 5 [List.replicate 40 'a']).map maxLenOf
        = [40, 40, 40, 40, 40] := by decide
    rw [hcols]
    have hlw : (80 : ℤ) - ((maxLenOf [['i']] : ℤ) + 1) = 78 := by decide
    rw [hlw, binify_width40_cols 78 (by norm_num)]
    rfl

/-- Witness for `binify_five_bins`: the configured line width 80 itself. -/
theorem binify_five_bins_witness :
    _binify [40, 40, 40, 40, 40] 80 = [1, 2, 3, 4, 5] :=
  binify_five_bins.1 80 (by norm_num)

/-! ## `CSVFormatter` chunked save (format.py lines 846-857, 1062-1092)

```python
        if chunksize is None:
            chunksize = (100000/ (len(self.cols) or 1)) or 1
        self.chunksize = chunksize
    ...
    def _save(self):
        self._save_header()
        nrows = len(self.data_index)
        # write in chunksize bites
        chunksize = self.chunksize
        chunks = int(nrows / chunksize)+1
        for i in xrange(chunks):
            start_i = i * chunksize
            end_i = min((i + 1) * chunksize, nrows)
            if start_i >= end_i:
                break
            self._save_chunk(start_i, end_i)
```

(Python 2 `/` on ints is floor division.)  `_save_chunk(start_i, end_i)`
formats the row slice `[start_i, end_i)` — `to_native_types(slicer=...)`
formats each value of the slice independently, and `lib.write_csv_rows` then
writes one formatted row per index of the slice — so a chunk's output is
`fmtRow` mapped over its row range, where `fmtRow i` is row `i`'s formatted
cells (a function of row `i`'s values only).  The writer's output is the list
of rows handed to it: byte-for-byte equality of two saves is equality of these
row lists. -/

/-- Default chunk size: `(100000 / (len(cols) or 1)) or 1`. -/
def defaultChunksize (ncols : ℕ) : ℕ :=
  let c := if ncols = 0 then 1 else ncols
  let cs := 100000 / c
  if cs = 0 then 1 else cs

/-- The `(start_i, end_i)` pairs of the chunks actually written: the loop runs
`i = 0, ..., nrows/chunksize` and `break`s at the first empty slice. -/
def csvChunkBounds (nrows chunksize : ℕ) : List (ℕ × ℕ) :=
  ((List.range (nrows / chunksize + 1)).map
      fun i => (i * chunksize, min ((i + 1) * chunksize) nrows)).takeWhile
    fun p => decide (p.1 < p.2)

/-- Model of `_save_chunk(start_i, end_i)`: one formatted row per index of the slice. -/
def save_chunk (fmtRow : ℕ → List String) (start_i end_i : ℕ) : List (List String) :=
  (List.range' start_i (end_i - start_i)).map fmtRow

/-- The data rows written by `_save`'s chunk loop. -/
def _save_chunks (fmtRow : ℕ → List String) (nrows chunksize : ℕ) : List (List String) :=
  ((csvChunkBounds nrows chunksize).map fun p => save_chunk fmtRow p.1 p.2).flatten

lemma takeWhile_map_comm {α β : Type} (f : α → β) (p : β → Bool) (l : List α) :
    (l.map f).takeWhile p = (l.takeWhile fun a => p (f a)).map f := by
  induction l with
  | nil => rfl
  | cons x xs ih =>
    simp only [List.map_cons, List.takeWhile_cons]
    split
    · simp only [List.map_cons, ih]
    · rfl

lemma range'_takeWhile (p : ℕ → Bool) :
    ∀ (n m s : ℕ), m ≤ n → (∀ i, i < m → p (s + i) = true) → (m < n → p (s + m) = false) →
      (List.range' s n).takeWhile p = List.range' s m := by
  intro n
  induction n with
  | zero =>
    intro m s hm _ _
    have : m = 0 := by omega
    subst this
    rfl
  | succ n ih =>
    intro m s hm h1 h2
    have hr : List.range' s (n + 1) = s :: List.range' (s + 1) n := by simp [List.range']
    rw [hr]
    cases m with
    | zero =>
      have hps : p s = false := by simpa using h2 (by omega)
      simp [List.takeWhile_cons, hps, List.range']
    | succ m =>
      have hps : p s = true := by simpa using h1 0 (by omega)
      simp only [List.takeWhile_cons, hps, if_true]
      have hrm : List.range' s (m + 1) = s :: List.range' (s + 1) m := by simp [List.range']
      rw [hrm]
      congr 1
      refine ih m (s + 1) (by omega) ?_ ?_
      · intro i hi
        have := h1 (i + 1) (by omega)
        simpa [Nat.add_assoc, Nat.add_comm, Nat.add_left_comm] using this
      · intro hmn
        have := h2 (by omega)
        simpa [Nat.add_assoc, Nat.add_comm, Nat.add_left_comm] using this

lemma chunk_lt_of_lt_ceil {nrows cs i : ℕ} (hcs : 0 < cs)
    (hi : i < (nrows + cs - 1) / cs) : i * cs < nrows := by
  have h1 : (i + 1) * cs ≤ ((nrows + cs - 1) / cs) * cs :=
    Nat.mul_le_mul_right cs (by omega)
  have h2 : ((nrows + cs - 1) / cs) * cs ≤ nrows + cs - 1 := Nat.div_mul_le_self _ _
  have h3 : (i + 1) * cs = i * cs + cs := by ring
  omega

lemma ceil_mul_ge {nrows cs : ℕ} (hcs : 0 < cs) :
    nrows ≤ ((nrows + cs - 1) / cs) * cs := by
  by_contra h
  push_neg at h
  have h1 : ((nrows + cs - 1) / cs + 1) * cs ≤ nrows + cs - 1 := by
    have : ((nrows + cs - 1) / cs + 1) * cs = ((nrows + cs - 1) / cs) * cs + cs := by ring
    omega
  have h2 : (nrows + cs - 1) / cs + 1 ≤ (nrows + cs - 1) / cs :=
    (Nat.le_div_iff_mul_le hcs).mpr h1
  omega

lemma ceil_le_div_succ {nrows cs : ℕ} (hcs : 0 < cs) :
    (nrows + cs - 1) / cs ≤ nrows / cs + 1 := by
  calc (nrows + cs - 1) / cs ≤ (nrows + cs) / cs := Nat.div_le_div_right (by omega)
    _ = nrows / cs + 1 := Nat.add_div_right nrows hcs

/-- The chunk loop emits exactly the first `⌈nrows / chunksize⌉` slices. -/
lemma csvChunkBounds_eq (nrows cs : ℕ) (hcs : 0 < cs) :
    csvChunkBounds nrows cs
      = (List.range ((nrows + cs - 1) / cs)).map
          fun i => (i * cs, min ((i + 1) * cs) nrows) := by
  unfold csvChunkBounds
  rw [takeWhile_map_comm]
  congr 1
  rw [List.range_eq_range', List.range_eq_range']
  refine range'_takeWhile _ (nrows / cs + 1) ((nrows + cs - 1) / cs) 0
    (ceil_le_div_succ hcs) ?_ ?_
  · intro i hi
    have hlt : i * cs < nrows := chunk_lt_of_lt_ceil hcs (by simpa using hi)
    have hcc : i * cs < (i + 1) * cs := by
      have : (i + 1) * cs = i * cs + cs := by ring
      omega
    simp only [Nat.zero_add]
    exact decide_eq_true (by omega)
  · intro _
    set m := (nrows + cs - 1) / cs with hm
    have hge : nrows ≤ m * cs := ceil_mul_ge hcs
    simp only [Nat.zero_add]
    apply decide_eq_false
    omega

lemma chunks_flatten (fmtRow : ℕ → List String) (nrows cs : ℕ) (hcs : 0 < cs) :
    ∀ k : ℕ,
      (((List.range k).map fun i => (i * cs, min ((i + 1) * cs) nrows)).map
          (fun p : ℕ × ℕ => save_chunk fmtRow p.1 p.2)).flatten
        = (List.range' 0 (min (k * cs) nrows)).map fmtRow := by
  intro k
  induction k with
  | zero => simp
  | succ k ih =>
    rw [List.range_succ]
    simp only [List.map_append, List.map_cons, List.map_nil, List.flatten_append]
    rw [ih]
    simp only [List.flatten_cons, List.flatten_nil, List.append_nil]
    unfold save_chunk
    rw [← List.map_append]
    congr 1
    by_cases hk : k * cs ≤ nrows
    · have ha : min (k * cs) nrows = k * cs := min_eq_left hk
      rw [ha]
      have hr := List.range'_append 0 (k * cs) (min ((k + 1) * cs) nrows - k * cs) 1
      simp only [Nat.one_mul, Nat.zero_add] at hr
      rw [hr]
      congr 1
      have hsucc : (k + 1) * cs = k * cs + cs := by ring
      omega
    · push_neg at hk
      have hsucc : (k + 1) * cs = k * cs + cs := by ring
      have ha : min (k * cs) nrows = nrows := min_eq_right (by omega)
      have hb : min ((k + 1) * cs) nrows = nrows := min_eq_right (by omega)
      rw [ha, hb]
      have : nrows - k * cs = 0 := by omega
      rw [this]
      simp

/-- C1: the chunk loop partitions the rows in order — chunk `k` covers rows
`[k·cs, min((k+1)·cs, nrows))`, all emitted chunks are non-empty, there are
exactly `⌈nrows / cs⌉` of them (13 for 250000 rows at chunk size 20000), the
concatenated chunk outputs equal the single-shot output (one chunk covering
every row), and the default chunk size is `max 1 (100000 / ncols)`. -/
theorem csv_chunked_save (fmtRow : ℕ → List String) (nrows cs : ℕ) (hcs : 0 < cs) :
    (csvChunkBounds nrows cs).length = (nrows + cs - 1) / cs
  ∧ (∀ p ∈ csvChunkBounds nrows cs, p.1 < p.2)
  ∧ (∀ k : ℕ, k < (nrows + cs - 1) / cs →
      (csvChunkBounds nrows cs)[k]? = some (k * cs, min ((k + 1) * cs) nrows))
  ∧ _save_chunks fmtRow nrows cs = save_chunk fmtRow 0 nrows
  ∧ (∀ C : ℕ, 0 < C → defaultChunksize C = max 1 (100000 / C))
  ∧ (csvChunkBounds 250000 20000).length = 13 := by
  refine ⟨?_, ?_, ?_, ?_, ?_, ?_⟩
  · rw [csvChunkBounds_eq nrows cs hcs]
    simp
  · intro p hp
    have := List.mem_takeWhile_imp hp
    simpa using this
  · intro k hk
    rw [csvChunkBounds_eq nrows cs hcs, List.getElem?_map, List.getElem?_range hk]
    rfl
  · unfold _save_chunks
    rw [csvChunkBounds_eq nrows cs hcs, chunks_flatten fmtRow nrows cs hcs]
    unfold save_chunk
    rw [min_eq_right (ceil_mul_ge hcs), Nat.sub_zero]
  · intro C hC
    simp only [defaultChunksize]
    have h1 : (if C = 0 then 1 else C) = C := if_neg (by omega)
    rw [h1]
    rcases Nat.eq_zero_or_pos (100000 / C) with h | h
    · rw [if_pos h, h]
      simp
    · rw [if_neg (by omega)]
      exact (Nat.max_eq_right h).symm
  · rw [csvChunkBounds_eq 250000 20000 (by omega)]
    simp

/-- Witness for `csv_chunked_save`: 5 rows at chunk size 2. -/
theorem csv_chunked_save_witness :
    _save_chunks (fun i => [toString i]) 5 2 = save_chunk (fun i => [toString i]) 0 5 :=
  (csv_chunked_save (fun i => [toString i]) 5 2 (by omega)).2.2.2.1

/-! ## `CSVFormatter._save_header` (format.py lines 979-1060) and
`ExcelFormatter._format_header_regular` (lines 1205-1224)

```python
    def _save_header(self):
        ...
        has_aliases = isinstance(header, (tuple, list, np.ndarray))
        if not (has_aliases or self.header):
            return
        if self.index:
            # [index_label normalisation -> encoded_labels]
            if has_aliases:
                if len(header) != len(cols):
                    raise ValueError(('Writing %d cols but got %d aliases'
                                      % (len(cols), len(header))))
                else:
                    write_cols = header
            else:
                write_cols = cols
            if not has_mi_columns:
                encoded_labels += list(write_cols)
        else:
            if not has_mi_columns:
                encoded_labels += list(cols)
        if has_mi_columns:
            # one row per column level, then blanks appended to encoded_labels
        writer.writerow(encoded_labels)
```

Note the alias length check sits *inside* the `if self.index:` branch: with
`index=False` the aliases are neither validated nor written — `cols` is.  The
`index_label` normalisation block is abstracted as the pre-computed cells
`indexLabelCells` (empty when `index_label=False`); the multi-index column
rows (`columns.names[i]` plus `columns.get_level_values(i)`) are abstracted as
`miLevelRows`, and `len(columns)` as `nMiColumns`.

`ExcelFormatter._format_header_regular` performs the same length check
unconditionally (whenever a header is to be written) before yielding one
header cell per column, using the aliases in place of the column labels.
-/

/-- The csv/excel `header` argument: a boolean flag or a list of aliases. -/
inductive CsvHeaderOpt where
  | flag (b : Bool)
  | aliases (l : List String)
deriving DecidableEq

/-- Python `isinstance(header, (tuple, list, np.ndarray))`. -/
def csvHasAliases : CsvHeaderOpt → Bool
  | CsvHeaderOpt.aliases _ => true
  | CsvHeaderOpt.flag _ => false

/-- Python truthiness of the `header` argument. -/
def csvHeaderTruthy : CsvHeaderOpt → Bool
  | CsvHeaderOpt.flag b => b
  | CsvHeaderOpt.aliases l => decide (l ≠ [])

/-- The rows written after the branch: the multi-index column rows (if any)
followed by the `encoded_labels` row (with blanks appended in the
multi-index-columns case). -/
def csvHeaderRows (encoded_labels : List String) (hasMiColumns : Bool)
    (miLevelRows : List (List String)) (nMiColumns : ℕ) : List (List String) :=
  if hasMiColumns then miLevelRows ++ [encoded_labels ++ List.replicate nMiColumns ("")]
  else [encoded_labels]

/-- Embedding of `_save_header`: the rows it writes, or the `ValueError` it raises. -/
def _save_header (header : CsvHeaderOpt) (cols : List String) (index : Bool)
    (indexLabelCells : List String) (hasMiColumns : Bool)
    (miLevelRows : List (List String)) (nMiColumns : ℕ) :
    Except String (List (List String)) :=
  if ¬(csvHasAliases header = true ∨ csvHeaderTruthy header = true) then Except.ok []
  else if index then
    match header with
    | CsvHeaderOpt.aliases al =>
      if al.length ≠ cols.length then
        Except.error ("Writing " ++ toString cols.length ++ " cols but got "
          ++ toString al.length ++ " aliases")
      else
        Except.ok (csvHeaderRows (indexLabelCells ++ (if ¬hasMiColumns then al else []))
          hasMiColumns miLevelRows nMiColumns)
    | _ =>
      Except.ok (csvHeaderRows (indexLabelCells ++ (if ¬hasMiColumns then cols else []))
        hasMiColumns miLevelRows nMiColumns)
  else
    Except.ok (csvHeaderRows (if ¬hasMiColumns then cols else [])
      hasMiColumns miLevelRows nMiColumns)

/-- Embedding of `_save`: the header rows followed by the data rows of the chunk loop; a
header `ValueError` propagates before any data row is written. -/
def _save (header : CsvHeaderOpt) (cols : List String) (index : Bool)
    (indexLabelCells : List String) (hasMiColumns : Bool)
    (miLevelRows : List (List String)) (nMiColumns : ℕ)
    (dataRows : List (List String)) : Except String (List (List String)) :=
  match _save_header header cols index indexLabelCells hasMiColumns miLevelRows nMiColumns with
  | Except.error e => Except.error e
  | Except.ok hrows => Except.ok (hrows ++ dataRows)

/-- An Excel output cell (merge/style fields omitted: the regular header path
always uses `header_style` and no merging). -/
structure ExcelCell where
  row : ℕ
  col : ℕ
  val : String
deriving DecidableEq

/-- Embedding of `ExcelFormatter._format_header_regular`: the header cells it yields, or
the `ValueError` it raises. -/
def _format_header_regular (header : CsvHeaderOpt) (columns : List String)
    (index : Bool) (indexIsMulti : Bool) (indexNlevels rowcounter : ℕ) :
    Except String (List ExcelCell) :=
  if csvHasAliases header = true ∨ csvHeaderTruthy header = true then
    let coloffset := if index then 1 else 0
    let coloffset := if indexIsMulti then indexNlevels else coloffset
    match header with
    | CsvHeaderOpt.aliases al =>
      if al.length ≠ columns.length then
        Except.error ("Writing " ++ toString columns.length ++ " cols but got "
          ++ toString al.length ++ " aliases")
      else
        Except.ok (al.enum.map fun p => ⟨rowcounter, p.1 + coloffset, p.2⟩)
    | _ =>
      Except.ok (columns.enum.map fun p => ⟨rowcounter, p.1 + coloffset, p.2⟩)
  else Except.ok []

/-- C8 counterexample: the delimited writer with `index=False` and a
one-element alias list against two columns raises nothing and writes the
original column labels — the aliases are neither validated nor used. -/
theorem csv_alias_nocheck_counterexample :
    _save_header (CsvHeaderOpt.aliases [("a")]) [("x"), ("y")] false [] false [] 0
      = Except.ok [[("x"), ("y")]] := rfl

/-- C8 (amended): the alias/column count check holds unconditionally for the
Excel-style header (mismatch raises before any cell is emitted, match writes
the aliases in place of the labels), and for the delimited writer whenever the
row index is written (`index=True`): a mismatch raises before any data row,
a match writes the aliases in the header row.  With `index=False` the
delimited writer ignores the alias list (see the counterexample). -/
theorem header_alias_mismatch (al cols columns indexLabelCells : List String)
    (miLevelRows dataRows : List (List String)) (nMiColumns rowcounter indexNlevels : ℕ)
    (index indexIsMulti hasMiColumns : Bool) :
    (al.length ≠ columns.length →
      ∃ e, _format_header_regular (CsvHeaderOpt.aliases al) columns index indexIsMulti
          indexNlevels rowcounter = Except.error e)
  ∧ (al.length = columns.length →
      ∃ cells, _format_header_regular (CsvHeaderOpt.aliases al) columns index indexIsMulti
          indexNlevels rowcounter = Except.ok cells ∧ cells.map ExcelCell.val = al)
  ∧ (al.length ≠ cols.length →
      ∃ e, _save (CsvHeaderOpt.aliases al) cols true indexLabelCells hasMiColumns
          miLevelRows nMiColumns dataRows = Except.error e)
  ∧ (al.length = cols.length →
      _save (CsvHeaderOpt.aliases al) cols true indexLabelCells false
          miLevelRows nMiColumns dataRows
        = Except.ok ((indexLabelCells ++ al) :: dataRows)) := by
  refine ⟨?_, ?_, ?_, ?_⟩
  · intro h
    refine ⟨("Writing " ++ toString columns.length ++ " cols but got "
      ++ toString al.length ++ " aliases"), ?_⟩
    simp only [_format_header_regular, csvHasAliases, csvHeaderTruthy]
    rw [if_pos (Or.inl trivial), if_pos h]
  · intro h
    refine ⟨al.enum.map fun p =>
        ⟨rowcounter, p.1 + (if indexIsMulti then indexNlevels else if index then 1 else 0), p.2⟩,
      ?_, ?_⟩
    · simp only [_format_header_regular, csvHasAliases, csvHeaderTruthy]
      rw [if_pos (Or.inl trivial), if_neg (by omega)]
    · rw [List.map_map]
      have : (ExcelCell.val ∘ fun p : ℕ × String =>
          (⟨rowcounter, p.1 + (if indexIsMulti then indexNlevels else if index then 1 else 0),
            p.2⟩ : ExcelCell)) = Prod.snd := by
        funext p
        rfl
      rw [this, List.enum_map_snd]
  · intro h
    refine ⟨("Writing " ++ toString cols.length ++ " cols but got "
      ++ toString al.length ++ " aliases"), ?_⟩
    unfold _save
    simp only [_save_header, csvHasAliases, csvHeaderTruthy]
    rw [if_neg (by simp), if_pos trivial, if_pos h]
  · intro h
    unfold _save
    simp only [_save_header, csvHasAliases, csvHeaderTruthy]
    rw [if_neg (by simp), if_pos trivial, if_neg (by omega)]
    simp [csvHeaderRows]

/-- Witness for `header_alias_mismatch`: two aliases against one Excel column
yield the count-mismatch error. -/
theorem header_alias_mismatch_witness :
    ∃ e, _format_header_regular (CsvHeaderOpt.aliases [("a"), ("b")]) [("x")] true false
        1 0 = Except.error e :=
  (header_alias_mismatch [("a"), ("b")] [] [("x")] [] [] [] 0 0 1 true false false).1
    (by decide)

/-! ## `GenericArrayFormatter._format_strings` (format.py lines 1385-1420)

```python
    def _format_strings(self):
        ...
        def _format(x):
            if self.na_rep is not None and lib.checknull(x):
                if x is None:
                    return 'None'
                return self.na_rep
            else:
                # object dtype
                return '%s' % formatter(x)

        vals = self.values
        is_float = lib.map_infer(vals, com.is_float) & notnull(vals)
        leading_space = is_float.any()

        fmt_values = []
        for i, v in enumerate(vals):
            if not is_float[i] and leading_space:
                fmt_values.append(' %s' % _format(v))
            elif is_float[i]:
                fmt_values.append(float_format(v))
            else:
                fmt_values.append(' %s' % _format(v))
        return fmt_values
```

Object-dtype raw values are a literal `None`, a float `NaN`, a genuine float,
or any other object; `lib.checknull` is true for `None` and `NaN`,
`com.is_float` for floats (`NaN` included — it is masked off by `notnull`).
The default pretty-printer and the configured float formatter are carried as
opaque parameters: the claim's branches never invoke them. -/

/-- A raw value of an object-dtype column. -/
inductive PyVal where
  | pynone : PyVal
  | nan : PyVal
  | float (q : ℚ) : PyVal
  | obj (s : String) : PyVal
deriving DecidableEq

/-- Python `lib.checknull`. -/
def checknull : PyVal → Bool
  | PyVal.pynone => true
  | PyVal.nan => true
  | _ => false

/-- Python `com.is_float` (a `NaN` is a Python float). -/
def com_is_float : PyVal → Bool
  | PyVal.float _ => true
  | PyVal.nan => true
  | _ => false

/-- The rational carried by a genuine float value. -/
def pyFloatVal : PyVal → ℚ
  | PyVal.float q => q
  | _ => 0

/-- The inner `_format(x)`. -/
def generic_format (formatter : PyVal → String) (naRep : Option String) (x : PyVal) : String :=
  if naRep.isSome = true ∧ checknull x = true then
    if x = PyVal.pynone then ("None") else naRep.getD ("")
  else formatter x

/-- Embedding of `_format_strings`. -/
def generic_format_strings (formatter : PyVal → String) (floatFormat : ℚ → String)
    (naRep : Option String) (values : List PyVal) : List String :=
  let is_float := fun v => com_is_float v && !(checknull v)
  let leading_space := values.any is_float
  values.map fun v =>
    if ¬ is_float v = true ∧ leading_space = true then (" ") ++ generic_format formatter naRep v
    else if is_float v = true then floatFormat (pyFloatVal v)
    else (" ") ++ generic_format formatter naRep v

/-- C9: the generic formatter keeps the two null flavors apart: a literal
`None` value renders as the token `'None'` under the default `na_rep`
(`'NaN'`), while a float `NaN` renders as the configured `na_rep` string (each
with the leading alignment space of the non-float branch). -/
theorem generic_null_flavors (formatter : PyVal → String) (floatFormat : ℚ → String)
    (values : List PyVal) (naRep : String) (i : ℕ) :
    (values[i]? = some PyVal.pynone →
      (generic_format_strings formatter floatFormat (some ("NaN")) values)[i]?
        = some ((" ") ++ ("None")))
  ∧ (values[i]? = some PyVal.nan →
      (generic_format_strings formatter floatFormat (some naRep) values)[i]?
        = some ((" ") ++ naRep)) := by
  constructor
  · intro h
    unfold generic_format_strings
    rw [List.getElem?_map, h]
    by_cases hls : values.any (fun v => com_is_float v && !(checknull v)) = true
    · simp [hls, com_is_float, checknull, generic_format]
    · simp [hls, com_is_float, checknull, generic_format]
  · intro h
    unfold generic_format_strings
    rw [List.getElem?_map, h]
    by_cases hls : values.any (fun v => com_is_float v && !(checknull v)) = true
    · simp [hls, com_is_float, checknull, generic_format, Option.getD]
    · simp [hls, com_is_float, checknull, generic_format, Option.getD]

/-- Witness for `generic_null_flavors`: `[None, NaN]` renders its first entry
as the `'None'` token. -/
theorem generic_null_flavors_witness :
    (generic_format_strings (fun _ => ("")) (fun _ => ("")) (some ("NaN"))
        [PyVal.pynone, PyVal.nan])[0]? = some ((" ") ++ ("None")) :=
  (generic_null_flavors (fun _ => ("")) (fun _ => ("")) [PyVal.pynone, PyVal.nan]
    ("NaN") 0).1 rfl

/-! ## `FloatArrayFormatter` (format.py lines 1423-1480)

```python
    def _format_with(self, fmt_str):
        def _val(x, threshold):
            if notnull(x):
                if threshold is None or  abs(x) >  get_option("display.chop_threshold"):
                    return  fmt_str % x
                else:
                    if fmt_str.endswith("e"): # engineering format
                        return  "0"
                    else:
                        return  fmt_str % 0
            else:
                return self.na_rep
        threshold = get_option("display.chop_threshold")
        fmt_values = [ _val(x, threshold) for x in self.values]
        return _trim_zeros(fmt_values, self.na_rep)

    def get_result(self):
        if self.formatter is not None:
            fmt_values = [self.formatter(x) for x in self.values]
        else:
            fmt_str = '%% .%df' % (self.digits - 1)
            fmt_values = self._format_with(fmt_str)
            if len(fmt_values) > 0:
                maxlen = max(len(x) for x in fmt_values)
            else:
                maxlen = 0
            too_long = maxlen > self.digits + 5
            abs_vals = np.abs(self.values)
            has_large_values = (abs_vals > 1e8).any()
            has_small_values = ((abs_vals < 10 ** (-self.digits)) &
                                (abs_vals > 0)).any()
            if too_long and has_large_values:
                fmt_str = '%% .%de' % (self.digits - 1)
                fmt_values = self._format_with(fmt_str)
            elif has_small_values:
                fmt_str = '%% .%de' % (self.digits - 1)
                fmt_values = self._format_with(fmt_str)
        return _make_fixed_width(fmt_values, self.justify)
```

A null entry (`NaN`) is `none`; `np` comparisons against `NaN` are false, so
null entries never contribute to `has_large_values`/`has_small_values`.  The
C-level `'% .Nf'`/`'% .Ne'` conversions round the exact value half-to-even;
they are rendered below with pure integer arithmetic on the rational's
numerator and denominator (the formatted-output claims never depend on the
digit strings themselves, only on the branch structure and on the trim pass
being re-applied to every value). -/

/-- Absolute value, written so that it evaluates by kernel reduction. -/
def qabs (q : ℚ) : ℚ := if q < 0 then -q else q

/-- Round `P / Q` to the nearest integer, ties to even (C `printf` rounding of
an exact value). -/
def halfEvenDivNat (P Q : ℕ) : ℕ :=
  let m := P / Q
  let r2 := 2 * (P % Q)
  if r2 < Q then m else if Q < r2 then m + 1 else if m % 2 = 0 then m else m + 1

/-- Decimal digits of `n`, left-padded with zeros to width `d`. -/
def padDigits (d n : ℕ) : PyStr :=
  let ds := Nat.toDigits 10 n
  List.replicate (d - ds.length) '0' ++ ds

/-- Renders `'% .df' % q`: sign slot (`' '` or `'-'`), integer digits, and `d`
fractional digits of the half-even-rounded magnitude. -/
def pyFixedFormat (d : ℕ) (q : ℚ) : PyStr :=
  let a := qabs q
  let m := halfEvenDivNat (a.num.toNat * 10 ^ d) a.den
  let sign : Char := if q < 0 then '-' else ' '
  sign :: (Nat.toDigits 10 (m / 10 ^ d)
    ++ if d = 0 then [] else '.' :: padDigits d (m % 10 ^ d))

/-- Largest `e : ℤ` with `10^e ≤ q`, for positive `q` (0 for other inputs,
which the callers exclude). -/
def qLog10Floor (q : ℚ) : ℤ :=
  if 1 ≤ q then (Nat.log 10 (q.num.toNat / q.den) : ℤ)
  else
    let L := Nat.log 10 (q.den / q.num.toNat)
    if q.den ≤ q.num.toNat * 10 ^ L then -(L : ℤ) else -(L : ℤ) - 1

/-- Renders `'% .de' % q`: sign slot, mantissa with `d` fractional digits (half-even,
with the carry `9.99… → 10.0…` bumping the exponent), `'e'`, and a signed
two-digit-minimum exponent. -/
def pySciFormat (d : ℕ) (q : ℚ) : PyStr :=
  if q = 0 then
    ' ' :: '0' :: ((if d = 0 then [] else '.' :: List.replicate d '0') ++ ['e', '+', '0', '0'])
  else
    let a := qabs q
    let e := qLog10Floor a
    let scaled := if 0 ≤ e then halfEvenDivNat (a.num.toNat * 10 ^ d) (a.den * 10 ^ e.toNat)
      else halfEvenDivNat (a.num.toNat * 10 ^ (d + (-e).toNat)) a.den
    let se := if scaled = 10 ^ (d + 1) then (10 ^ d, e + 1) else (scaled, e)
    let sign : Char := if q < 0 then '-' else ' '
    let mant := Nat.toDigits 10 (se.1 / 10 ^ d)
      ++ if d = 0 then [] else '.' :: padDigits d (se.1 % 10 ^ d)
    let esign : Char := if se.2 < 0 then '-' else '+'
    let eds := Nat.toDigits 10 se.2.natAbs
    sign :: mant ++ 'e' :: esign :: (List.replicate (2 - eds.length) '0' ++ eds)

/-- The conversion in `fmt_str`: fixed-point `'% .df'` or scientific
`'% .de'`. -/
inductive FloatFmt where
  | fixed (d : ℕ)
  | sci (d : ℕ)

/-- Apply the conversion to one value. -/
def applyFloatFmt : FloatFmt → ℚ → PyStr
  | FloatFmt.fixed d, q => pyFixedFormat d q
  | FloatFmt.sci d, q => pySciFormat d q

/-- The chopped rendering of a value below the threshold: `"0"` for the
scientific conversion (`fmt_str.endswith("e")`), `fmt_str % 0` otherwise. -/
def chopZero : FloatFmt → PyStr
  | FloatFmt.sci _ => ['0']
  | FloatFmt.fixed d => pyFixedFormat d 0

/-- The inner `_val(x, threshold)`. -/
def _val (fmt : FloatFmt) (naRep : PyStr) (threshold : Option ℚ) (x : Option ℚ) : PyStr :=
  match x with
  | none => naRep
  | some q =>
    match threshold with
    | none => applyFloatFmt fmt q
    | some t => if t < qabs q then applyFloatFmt fmt q else chopZero fmt

/-- Embedding of `_format_with`: format every value, then run the trim pass. -/
def _format_with (fmt : FloatFmt) (naRep : PyStr) (threshold : Option ℚ)
    (values : List (Option ℚ)) : List PyStr :=
  _trim_zeros (values.map (_val fmt naRep threshold)) naRep

/-- Embedding of `FloatArrayFormatter.get_result` (the configuration values
`display.chop_threshold` and `display.max_colwidth` are the explicit
parameters `threshold` and `confMax`). -/
def floatGetResult (formatter : Option (Option ℚ → PyStr)) (values : List (Option ℚ))
    (digits : ℕ) (naRep : PyStr) (threshold : Option ℚ) (justify : String)
    (confMax : Option ℕ) : List PyStr :=
  match formatter with
  | some f => _make_fixed_width (values.map f) justify none confMax
  | none =>
    let fmt_values := _format_with (FloatFmt.fixed (digits - 1)) naRep threshold values
    let maxlen := maxLenOf fmt_values
    let too_long := decide (digits + 5 < maxlen)
    let has_large_values := values.any fun x =>
      match x with
      | some q => decide ((10:ℚ)^8 < qabs q)
      | none => false
    let has_small_values := values.any fun x =>
      match x with
      | some q => decide (qabs q < ((10:ℚ)^digits)⁻¹) && decide (0 < qabs q)
      | none => false
    if too_long && has_large_values then
      _make_fixed_width (_format_with (FloatFmt.sci (digits - 1)) naRep threshold values)
        justify none confMax
    else if has_small_values then
      _make_fixed_width (_format_with (FloatFmt.sci (digits - 1)) naRep threshold values)
        justify none confMax
    else
      _make_fixed_width fmt_values justify none confMax

lemma any_opt_iff (values : List (Option ℚ)) (p : ℚ → Bool) :
    (values.any fun x => match x with | some q => p q | none => false) = true
      ↔ ∃ q ∈ values.reduceOption, p q = true := by
  rw [List.any_eq_true]
  constructor
  · rintro ⟨x, hx, hpx⟩
    cases x with
    | none => simp at hpx
    | some q => exact ⟨q, List.reduceOption_mem_iff.mpr hx, hpx⟩
  · rintro ⟨q, hq, hpq⟩
    exact ⟨some q, List.reduceOption_mem_iff.mp hq, hpq⟩

/-- C2: with no per-value formatter override, the whole column is re-formatted
in scientific notation at `digits - 1` fractional digits — with the trim pass
re-applied to every value — exactly when (the longest trimmed fixed-point
string exceeds `digits + 5` characters and some absolute value exceeds `1e8`)
or some nonzero absolute value is below `10^(-digits)`; otherwise the
fixed-point strings are kept. -/
theorem float_escalation_heuristic (values : List (Option ℚ)) (digits : ℕ)
    (naRep : PyStr) (threshold : Option ℚ) (justify : String) (confMax : Option ℕ) :
    (((digits + 5 < maxLenOf (_format_with (FloatFmt.fixed (digits - 1)) naRep threshold values)
          ∧ ∃ q ∈ values.reduceOption, (10:ℚ)^8 < qabs q)
        ∨ (∃ q ∈ values.reduceOption, qabs q < ((10:ℚ)^digits)⁻¹ ∧ 0 < qabs q)) →
      floatGetResult none values digits naRep threshold justify confMax
        = _make_fixed_width (_format_with (FloatFmt.sci (digits - 1)) naRep threshold values)
            justify none confMax)
  ∧ (¬(((digits + 5 < maxLenOf (_format_with (FloatFmt.fixed (digits - 1)) naRep threshold values)
          ∧ ∃ q ∈ values.reduceOption, (10:ℚ)^8 < qabs q)
        ∨ (∃ q ∈ values.reduceOption, qabs q < ((10:ℚ)^digits)⁻¹ ∧ 0 < qabs q))) →
      floatGetResult none values digits naRep threshold justify confMax
        = _make_fixed_width (_format_with (FloatFmt.fixed (digits - 1)) naRep threshold values)
            justify none confMax) := by
  have hL : (values.any fun x => match x with
        | some q => decide ((10:ℚ)^8 < qabs q)
        | none => false) = true
      ↔ ∃ q ∈ values.reduceOption, (10:ℚ)^8 < qabs q := by
    rw [any_opt_iff]
    simp
  have hS : (values.any fun x => match x with
        | some q => decide (qabs q < ((10:ℚ)^digits)⁻¹) && decide (0 < qabs q)
        | none => false) = true
      ↔ ∃ q ∈ values.reduceOption, qabs q < ((10:ℚ)^digits)⁻¹ ∧ 0 < qabs q := by
    rw [any_opt_iff]
    simp
  constructor
  · intro hcond
    simp only [floatGetResult]
    by_cases h1 : (decide (digits + 5
          < maxLenOf (_format_with (FloatFmt.fixed (digits - 1)) naRep threshold values))
        && (values.any fun x => match x with
          | some q => decide ((10:ℚ)^8 < qabs q)
          | none => false)) = true
    · rw [if_pos h1]
    · rw [if_neg h1]
      have h2 : (values.any fun x => match x with
          | some q => decide (qabs q < ((10:ℚ)^digits)⁻¹) && decide (0 < qabs q)
          | none => false) = true := by
        rcases hcond with ⟨hml, hlarge⟩ | hsmall
        · exfalso
          apply h1
          rw [Bool.and_eq_true]
          exact ⟨decide_eq_true hml, hL.mpr hlarge⟩
        · exact hS.mpr hsmall
      rw [if_pos h2]
  · intro hcond
    simp only [floatGetResult]
    have h1 : (decide (digits + 5
          < maxLenOf (_format_with (FloatFmt.fixed (digits - 1)) naRep threshold values))
        && (values.any fun x => match x with
          | some q => decide ((10:ℚ)^8 < qabs q)
          | none => false)) = false := by
      rw [Bool.eq_false_iff]
      intro hc
      rw [Bool.and_eq_true] at hc
      exact hcond (Or.inl ⟨of_decide_eq_true hc.1, hL.mp hc.2⟩)
    have h2 : (values.any fun x => match x with
        | some q => decide (qabs q < ((10:ℚ)^digits)⁻¹) && decide (0 < qabs q)
        | none => false) = false := by
      rw [Bool.eq_false_iff]
      intro hc
      exact hcond (Or.inr (hS.mp hc))
    rw [if_neg (by rw [h1]; exact Bool.false_ne_true), if_neg (by rw [h2]; exact Bool.false_ne_true)]

/-- Witness for `float_escalation_heuristic`: a column holding only `10^(-8)`
at precision 7 has a nonzero absolute value below `10^(-7)` and escalates. -/
theorem float_escalation_heuristic_witness :
    floatGetResult none [some (((10:ℚ)^8)⁻¹)] 7 ['N','a','N'] none "right" none
      = _make_fixed_width
          (_format_with (FloatFmt.sci 6) ['N','a','N'] none [some (((10:ℚ)^8)⁻¹)])
          "right" none none := by
  have hpos : (0:ℚ) < ((10:ℚ)^8)⁻¹ := by positivity
  have habs : qabs (((10:ℚ)^8)⁻¹) = ((10:ℚ)^8)⁻¹ := if_neg (not_lt.mpr hpos.le)
  refine (float_escalation_heuristic [some (((10:ℚ)^8)⁻¹)] 7 ['N','a','N'] none
      "right" none).1 (Or.inr ⟨((10:ℚ)^8)⁻¹, by simp, ?_, ?_⟩)
  · rw [habs]
    have h78 : ((10:ℚ)^7) < (10:ℚ)^8 := by norm_num
    exact inv_strictAnti₀ (by positivity) h78
  · rw [habs]
    exact hpos
